import Mathlib

/-!
# Verification of `flat_map` (`src/flat_map.rs`)

A `FlatMap<K, V, L>` stores a vector `v : Vec<(K, V)>` of key-value pairs kept
strictly ascending by key, together with a pluggable lookup strategy `L`.
We embed the backing vector as a `List (K × V)` over a key type with a
`LinearOrder` (the embedding of Rust's `Ord` bound) and each operation as a
Lean function translated from the Rust source.

A strategy's `lookup` returns Rust's `Result<usize, usize>`, embedded as
`Except Nat Nat`: `.ok i` is `Ok(i)` (key found at index `i`) and
`.error j` is `Err(j)` (key absent, insertion point `j`).
-/

namespace FlatMapVerify

universe u v

variable {K : Type u} {V : Type v}

/-- Invariant I1 from the spec: the backing pairs are strictly ascending by
key (hence all keys distinct). -/
def I1 [LinearOrder K] (m : List (K × V)) : Prop :=
  m.Pairwise fun a b => a.1 < b.1

instance [LinearOrder K] (m : List (K × V)) : Decidable (I1 m) :=
  List.instDecidablePairwise m

/-! ## The three lookup strategies

`BinarySearch::lookup` delegates to `slice::binary_search_by`, whose loop
maintains `left`/`right` with `mid = left + size / 2` where `size`
equals `right - left` at every iteration head.  We embed that loop with an
explicit fuel argument (one unit per iteration; `right - left` units always
suffice, and the entry point supplies `l.length`). -/

/-- The loop of `slice::binary_search_by` specialised to the comparator
`|&(ref k, _)| k.borrow().cmp(q)` used by `impl Lookup for BinarySearch`.
When fuel runs out, or the probe index falls out of bounds (neither can
happen from the actual entry point, where `right ≤ l.length` and the fuel
covers `right - left` iterations), it answers as if the window were empty. -/
def bsLoop [LinearOrder K] (q : K) (l : List (K × V)) :
    Nat → Nat → Nat → Except Nat Nat
  | 0, left, _ => .error left
  | fuel + 1, left, right =>
    if left < right then
      match l.get? (left + (right - left) / 2) with
      | none => .error left
      | some p =>
        match compare p.1 q with
        | .lt => bsLoop q l fuel (left + (right - left) / 2 + 1) right
        | .gt => bsLoop q l fuel left (left + (right - left) / 2)
        | .eq => .ok (left + (right - left) / 2)
    else
      .error left

/-- Embeds `impl Lookup for BinarySearch`: `slice.binary_search_by(|&(ref k, _)| k.borrow().cmp(q))`. -/
def binarySearch [LinearOrder K] (q : K) (l : List (K × V)) : Except Nat Nat :=
  bsLoop q l l.length 0 l.length

/-- Embeds `impl Lookup for LinearFront`: scan `slice.iter().enumerate()` from the
front; the first key not less than `q` decides (`Ok` on equal, `Err` on
greater), falling through to `Err(slice.len())`.  The Rust loop's running
index is recovered by shifting the recursive result by one. -/
def linearFront [LinearOrder K] (q : K) : List (K × V) → Except Nat Nat
  | [] => .error 0
  | (k, _) :: rest =>
    match compare k q with
    | .lt =>
      match linearFront q rest with
      | .ok i => .ok (i + 1)
      | .error i => .error (i + 1)
    | .eq => .ok 0
    | .gt => .error 0

/-- Embeds `impl Lookup for LinearBack`: scan `slice.iter().enumerate().rev()` from
the back; the first (highest-index) key not greater than `q` decides
(`Ok(index)` on equal, `Err(index + 1)` on less), falling through to
`Err(0)`.  Structurally the scan examines the tail (higher indices) before
the head: a decisive answer from the tail is shifted by one, and only an
all-greater tail (`.error 0`) lets the head's comparison run. -/
def linearBack [LinearOrder K] (q : K) : List (K × V) → Except Nat Nat
  | [] => .error 0
  | (k, _) :: rest =>
    match linearBack q rest with
    | .ok i => .ok (i + 1)
    | .error 0 =>
      match compare k q with
      | .lt => .error 1
      | .eq => .ok 0
      | .gt => .error 0
    | .error (i + 1) => .error (i + 2)

/-- Modelled from the spec's lookup contract (invariant I2): `Ok(i)` iff the
key is present, `i` being the first index holding it (for I1 lists, the
unique one), and `Err(j)` iff the key is absent, `j` being the number of
keys less than the query (for I1 lists, the unique insertion point that
keeps the sequence sorted). -/
def specLookup [LinearOrder K] (q : K) : List (K × V) → Except Nat Nat
  | [] => .error 0
  | (k, _) :: rest =>
    if k = q then .ok 0
    else
      match specLookup q rest with
      | .ok i => .ok (i + 1)
      | .error j => .error (if k < q then j + 1 else j)

/-! ## Characterisation of `specLookup` -/

theorem specLookup_gt_all [LinearOrder K] {q : K} {l : List (K × V)}
    (h : ∀ p ∈ l, q < p.1) : specLookup q l = .error 0 := by
  induction l with
  | nil => rfl
  | cons hd rest ih =>
    obtain ⟨k, v⟩ := hd
    have hk : q < k := h (k, v) (List.mem_cons_self _ _)
    have hrest : specLookup q rest = .error 0 :=
      ih fun p hp => h p (List.mem_cons_of_mem _ hp)
    simp [specLookup, hrest, hk.ne', hk.asymm]

theorem specLookup_error_absent [LinearOrder K] {q : K} {l : List (K × V)} {j : Nat}
    (h : specLookup q l = .error j) : ∀ p ∈ l, p.1 ≠ q := by
  induction l generalizing j with
  | nil => intro p hp; cases hp
  | cons hd rest ih =>
    obtain ⟨k, v⟩ := hd
    simp only [specLookup] at h
    intro p hp
    by_cases hk : k = q
    · rw [if_pos hk] at h; cases h
    · rw [if_neg hk] at h
      rcases hrest : specLookup q rest with j' | i <;> rw [hrest] at h
      · rcases List.mem_cons.1 hp with rfl | hpmem
        · exact hk
        · exact ih hrest p hpmem
      · cases h

theorem specLookup_error_count [LinearOrder K] {q : K} {l : List (K × V)}
    (habs : ∀ p ∈ l, p.1 ≠ q) :
    specLookup q l = .error (l.countP fun p => decide (p.1 < q)) := by
  induction l with
  | nil => rfl
  | cons hd rest ih =>
    obtain ⟨k, v⟩ := hd
    have hk : k ≠ q := habs (k, v) (List.mem_cons_self _ _)
    have hrest := ih fun p hp => habs p (List.mem_cons_of_mem _ hp)
    by_cases hlt : k < q
    · simp [specLookup, if_neg hk, hrest, List.countP_cons, hlt]
    · simp [specLookup, if_neg hk, hrest, List.countP_cons, hlt]

theorem specLookup_ok_of_get [LinearOrder K] {q : K} {l : List (K × V)} (hs : I1 l)
    {i : Nat} {p : K × V} (hget : l.get? i = some p) (hkey : p.1 = q) :
    specLookup q l = .ok i := by
  induction l generalizing i with
  | nil => simp at hget
  | cons hd rest ih =>
    obtain ⟨k, v⟩ := hd
    rw [I1, List.pairwise_cons] at hs
    obtain ⟨hhead, hrest⟩ := hs
    cases i with
    | zero =>
      have : p = (k, v) := by simpa using hget.symm
      subst this
      have hk : k = q := hkey
      simp [specLookup, hk]
    | succ i' =>
      have hget' : rest.get? i' = some p := by simpa using hget
      have hpmem : p ∈ rest := List.get?_mem hget'
      have hkq : k < q := hkey ▸ hhead p hpmem
      have := ih hrest hget'
      simp [specLookup, this, hkq.ne]

theorem specLookup_ok_get [LinearOrder K] {q : K} {l : List (K × V)} {i : Nat}
    (h : specLookup q l = .ok i) : ∃ p, l.get? i = some p ∧ p.1 = q := by
  induction l generalizing i with
  | nil => cases h
  | cons hd rest ih =>
    obtain ⟨k, v⟩ := hd
    simp only [specLookup] at h
    by_cases hk : k = q
    · rw [if_pos hk] at h
      cases h
      exact ⟨(k, v), rfl, hk⟩
    · rw [if_neg hk] at h
      rcases hrest : specLookup q rest with j' | i' <;> rw [hrest] at h
      · cases h
      · cases h
        obtain ⟨p, hp, hpk⟩ := ih hrest
        exact ⟨p, by simpa using hp, hpk⟩

theorem specLookup_window [LinearOrder K] {q : K} {l : List (K × V)} {j : Nat}
    (hj : j ≤ l.length)
    (hlow : ∀ i (h : i < l.length), i < j → (l.get ⟨i, h⟩).1 < q)
    (hhigh : ∀ i (h : i < l.length), j ≤ i → q < (l.get ⟨i, h⟩).1) :
    specLookup q l = .error j := by
  induction l generalizing j with
  | nil =>
    have : j = 0 := by simpa using hj
    subst this; rfl
  | cons hd rest ih =>
    obtain ⟨k, v⟩ := hd
    cases j with
    | zero =>
      apply specLookup_gt_all
      intro p hp
      obtain ⟨⟨i, hi⟩, rfl⟩ := List.mem_iff_get.1 hp
      exact hhigh i hi (Nat.zero_le i)
    | succ j' =>
      have hk : k < q := hlow 0 (by simp) (Nat.succ_pos j')
      have hrest : specLookup q rest = .error j' := by
        apply ih (Nat.le_of_succ_le_succ hj)
        · intro i h hij
          have := hlow (i + 1) (by simpa using Nat.succ_lt_succ h) (Nat.succ_lt_succ hij)
          simpa using this
        · intro i h hij
          have := hhigh (i + 1) (by simpa using Nat.succ_lt_succ h) (Nat.succ_le_succ hij)
          simpa using this
      simp [specLookup, hk.ne, hk, hrest]

/-! ## The three strategies agree with `specLookup` on I1 slices -/

theorem linearFront_eq_spec [LinearOrder K] {q : K} {l : List (K × V)} (hs : I1 l) :
    linearFront q l = specLookup q l := by
  induction l with
  | nil => rfl
  | cons hd rest ih =>
    obtain ⟨k, v⟩ := hd
    rw [I1, List.pairwise_cons] at hs
    obtain ⟨hhead, hrest⟩ := hs
    have ih' := ih hrest
    rcases lt_trichotomy k q with hlt | heq | hgt
    · rcases hsp : specLookup q rest with j | i
      · simp [linearFront, specLookup, compare_lt_iff_lt.2 hlt, hlt.ne, hlt, ih', hsp]
      · simp [linearFront, specLookup, compare_lt_iff_lt.2 hlt, hlt.ne, ih', hsp]
    · subst heq
      simp [linearFront, specLookup, compare_eq_iff_eq.2 rfl]
    · have hr0 : specLookup q rest = .error 0 :=
        specLookup_gt_all fun p hp => lt_trans hgt (hhead p hp)
      simp [linearFront, specLookup, compare_gt_iff_gt.2 hgt, hgt.ne', hgt.asymm, hr0]

theorem linearBack_eq_spec [LinearOrder K] {q : K} {l : List (K × V)} (hs : I1 l) :
    linearBack q l = specLookup q l := by
  induction l with
  | nil => rfl
  | cons hd rest ih =>
    obtain ⟨k, v⟩ := hd
    rw [I1, List.pairwise_cons] at hs
    obtain ⟨hhead, hrest⟩ := hs
    have ih' := ih hrest
    rcases hsp : specLookup q rest with j | i
    · have habs : ∀ p ∈ rest, p.1 ≠ q := specLookup_error_absent hsp
      cases j with
      | zero =>
        rcases lt_trichotomy k q with hlt | heq | hgt
        · simp [linearBack, specLookup, ih', hsp, compare_lt_iff_lt.2 hlt, hlt.ne, hlt]
        · subst heq
          simp [linearBack, specLookup, ih', hsp, compare_eq_iff_eq.2 rfl]
        · simp [linearBack, specLookup, ih', hsp, compare_gt_iff_gt.2 hgt, hgt.ne',
            hgt.asymm]
      | succ j' =>
        have hcnt := specLookup_error_count habs
        rw [hsp] at hcnt
        have hval : (rest.countP fun p => decide (p.1 < q)) = j' + 1 :=
          (Except.error.inj hcnt).symm
        have hpos : 0 < rest.countP fun p => decide (p.1 < q) := by omega
        obtain ⟨p, hp, hplt⟩ := List.countP_pos_iff.1 hpos
        have hkq : k < q := lt_trans (hhead p hp) (of_decide_eq_true hplt)
        simp [linearBack, specLookup, ih', hsp, hkq.ne, hkq]
    · obtain ⟨p, hget, hpk⟩ := specLookup_ok_get hsp
      have hpmem : p ∈ rest := List.get?_mem hget
      have hkq : k < q := hpk ▸ hhead p hpmem
      simp [linearBack, specLookup, ih', hsp, hkq.ne]

theorem bsLoop_eq_spec [LinearOrder K] {q : K} {l : List (K × V)} (hs : I1 l) :
    ∀ fuel left right, right ≤ l.length → left ≤ right → right - left ≤ fuel →
    (∀ i (h : i < l.length), i < left → (l.get ⟨i, h⟩).1 < q) →
    (∀ i (h : i < l.length), right ≤ i → q < (l.get ⟨i, h⟩).1) →
    bsLoop q l fuel left right = specLookup q l := by
  intro fuel
  induction fuel with
  | zero =>
    intro left right hr hlr hfuel hlow hhigh
    have hleq : left = right := by omega
    subst hleq
    exact (specLookup_window (le_trans hlr hr) hlow fun i h hi => hhigh i h hi).symm
  | succ fuel ih =>
    intro left right hr hlr hfuel hlow hhigh
    by_cases h : left < right
    · have hmr : left + (right - left) / 2 < right := by omega
      have hml : left ≤ left + (right - left) / 2 := by omega
      have hmlen : left + (right - left) / 2 < l.length := lt_of_lt_of_le hmr hr
      have hpg := List.pairwise_iff_get.1 hs
      have hstep : bsLoop q l (fuel + 1) left right =
          (match compare (l.get ⟨left + (right - left) / 2, hmlen⟩).1 q with
           | .lt => bsLoop q l fuel (left + (right - left) / 2 + 1) right
           | .gt => bsLoop q l fuel left (left + (right - left) / 2)
           | .eq => .ok (left + (right - left) / 2)) := by
        simp only [bsLoop, if_pos h, List.get?_eq_get hmlen]
      rw [hstep]
      rcases lt_trichotomy (l.get ⟨left + (right - left) / 2, hmlen⟩).1 q
        with hlt | heq | hgt
      · rw [compare_lt_iff_lt.2 hlt]
        show bsLoop q l fuel (left + (right - left) / 2 + 1) right = specLookup q l
        apply ih _ right hr (by omega) (by omega) _ hhigh
        intro i hi hilt
        rcases Nat.lt_or_ge i (left + (right - left) / 2) with him | him
        · exact lt_trans (hpg ⟨i, hi⟩ ⟨left + (right - left) / 2, hmlen⟩ him) hlt
        · have : i = left + (right - left) / 2 := by omega
          subst this; exact hlt
      · rw [compare_eq_iff_eq.2 heq]
        show Except.ok (left + (right - left) / 2) = specLookup q l
        exact (specLookup_ok_of_get hs (List.get?_eq_get hmlen) heq).symm
      · rw [compare_gt_iff_gt.2 hgt]
        show bsLoop q l fuel left (left + (right - left) / 2) = specLookup q l
        apply ih left _ (le_of_lt hmlen) (by omega) (by omega) hlow
        intro i hi hile
        rcases Nat.lt_or_ge i right with _ | hir
        · rcases Nat.eq_or_lt_of_le hile with rfl | him
          · exact hgt
          · exact lt_trans hgt (hpg ⟨_, hmlen⟩ ⟨i, hi⟩ him)
        · exact hhigh i hi hir
    · have hleq : left = right := by omega
      subst hleq
      rw [show bsLoop q l (fuel + 1) left left = .error left from by
        simp [bsLoop]]
      exact (specLookup_window (le_trans hlr hr) hlow fun i h hi => hhigh i h hi).symm

theorem binarySearch_eq_spec [LinearOrder K] {q : K} {l : List (K × V)} (hs : I1 l) :
    binarySearch q l = specLookup q l := by
  apply bsLoop_eq_spec hs l.length 0 l.length le_rfl (Nat.zero_le _) (by omega)
  · intro i h hi; omega
  · intro i h hi; omega

/-- C1: for every strictly-ascending pair sequence and every query key, the
three lookup strategies BinarySearch, LinearFront and LinearBack return
identical results, namely `specLookup`; moreover that common result is
`.ok i` iff the key is present at index `i`, and `.error j` iff the key is
absent, where `j` is the number of keys smaller than the query — for an I1
sequence, the unique insertion point that keeps it sorted. -/
theorem strategy_equivalence [LinearOrder K] (l : List (K × V)) (q : K) (hs : I1 l) :
    binarySearch q l = specLookup q l ∧
    linearFront q l = specLookup q l ∧
    linearBack q l = specLookup q l ∧
    (∀ i, specLookup q l = .ok i ↔ ∃ p, l.get? i = some p ∧ p.1 = q) ∧
    (∀ j, specLookup q l = .error j ↔
      (∀ p ∈ l, p.1 ≠ q) ∧ j = l.countP fun p => decide (p.1 < q)) := by
  refine ⟨binarySearch_eq_spec hs, linearFront_eq_spec hs, linearBack_eq_spec hs, ?_, ?_⟩
  · intro i
    constructor
    · exact specLookup_ok_get
    · rintro ⟨p, hget, hkey⟩
      exact specLookup_ok_of_get hs hget hkey
  · intro j
    constructor
    · intro h
      have habs := specLookup_error_absent h
      have hcnt := specLookup_error_count habs
      rw [h] at hcnt
      exact ⟨habs, Except.error.inj hcnt⟩
    · rintro ⟨habs, rfl⟩
      exact specLookup_error_count habs

/-- A small concrete I1 sequence used by witnesses. -/
def egGap : List (Nat × Nat) := [(1, 10), (2, 20), (4, 40)]

/-- Witness for `strategy_equivalence` at the I1 sequence `egGap` and query 3. -/
theorem strategy_equivalence_witness :
    I1 egGap ∧
    (binarySearch 3 egGap = specLookup 3 egGap ∧
     linearFront 3 egGap = specLookup 3 egGap ∧
     linearBack 3 egGap = specLookup 3 egGap ∧
     (∀ i, specLookup 3 egGap = .ok i ↔ ∃ p, egGap.get? i = some p ∧ p.1 = 3) ∧
     (∀ j, specLookup 3 egGap = .error j ↔
       (∀ p ∈ egGap, p.1 ≠ 3) ∧ j = egGap.countP fun p => decide (p.1 < 3))) :=
  ⟨by decide, strategy_equivalence egGap 3 (by decide)⟩

/-! ## The map operations

Every method of `FlatMap<K, V, L>` consults the strategy through
`self.l.lookup(&self.v[..], key)`.  The claims concern maps built with the
default `BinarySearch` strategy, so the embedded operations call
`binarySearch`. -/

/-- Embeds `FlatMap::insert`: on `Err(i)` insert the pair at `i`; on `Ok(i)` swap
the new value into `self.v[i]` (key untouched) and return the old one.
Result: (new backing vector, previous value).  The `none` fallback of the
inner match is unreachable: an `Ok` index from the strategy is in bounds. -/
def insertFM [LinearOrder K] (m : List (K × V)) (key : K) (v : V) :
    List (K × V) × Option V :=
  match binarySearch key m with
  | .error i => (m.insertIdx i (key, v), none)
  | .ok i =>
    match m.get? i with
    | some p => (m.set i (p.1, v), some p.2)
    | none => (m, none)

/-- Embeds `FlatMap::remove`: on `Ok(i)` remove `self.v[i]` and return its value.
The `none` fallback is unreachable as in `insertFM`. -/
def removeFM [LinearOrder K] (m : List (K × V)) (q : K) :
    List (K × V) × Option V :=
  match binarySearch q m with
  | .error _ => (m, none)
  | .ok i =>
    match m.get? i with
    | some p => (m.eraseIdx i, some p.2)
    | none => (m, none)

/-- Embeds `FlatMap::get`: on `Ok(idx)` return the value at `idx`. -/
def getFM [LinearOrder K] (m : List (K × V)) (q : K) : Option V :=
  match binarySearch q m with
  | .error _ => none
  | .ok i => (m.get? i).map Prod.snd

/-- Embeds `FlatMap::contains_key`: `self.get(k).is_some()`. -/
def containsKey [LinearOrder K] (m : List (K × V)) (q : K) : Bool :=
  (getFM m q).isSome

/-- Embeds `FlatMap::split_off`: on `Err(_)` keep everything and return an empty
map; on `Ok(at)` do `self.v.split_off(at)`.  Result: (what `self` keeps,
the returned map's vector). -/
def splitOffFM [LinearOrder K] (m : List (K × V)) (q : K) :
    List (K × V) × List (K × V) :=
  match binarySearch q m with
  | .error _ => (m, [])
  | .ok i => (m.take i, m.drop i)

/-- The `Entry` returned by `FlatMap::entry`: `Vacant` holds the insertion
index and the pending key, `Occupied` the index of the existing pair. -/
inductive EntryFM (K : Type u) where
  | vacant (index : Nat) (key : K)
  | occupied (index : Nat)

/-- Embeds `FlatMap::entry`. -/
def entryFM [LinearOrder K] (m : List (K × V)) (key : K) : EntryFM K :=
  match binarySearch key m with
  | .error i => .vacant i key
  | .ok i => .occupied i

/-- Embeds `VacantEntry::insert`: insert the pending pair at the precomputed index;
the returned `&mut V` is modelled as the index it points at. -/
def vacantInsert (m : List (K × V)) (index : Nat) (key : K) (value : V) :
    List (K × V) × Nat :=
  (m.insertIdx index (key, value), index)

/-- Embeds `Entry::or_insert`: `Occupied → into_mut` (a reference to the existing
value), `Vacant → insert(default)`.  Result: (vector, index the returned
`&mut V` points at). -/
def orInsert [LinearOrder K] (m : List (K × V)) (key : K) (default : V) :
    List (K × V) × Nat :=
  match entryFM m key with
  | .occupied i => (m, i)
  | .vacant i k => vacantInsert m i k default

/-- Embeds `Entry::or_insert_with`: the producer `f` is a state transformer so that
its invocations are observable; it runs only in the `Vacant` arm, once. -/
def orInsertWith [LinearOrder K] {σ : Type w} (m : List (K × V)) (key : K)
    (f : σ → V × σ) (s : σ) : (List (K × V) × Nat) × σ :=
  match entryFM m key with
  | .occupied i => ((m, i), s)
  | .vacant i k => ((vacantInsert m i k (f s).1), (f s).2)

/-- Embeds `FlatMap::append`: drain `other`'s pairs in order and `insert` each into
`self`.  Result: (new `self` vector, new `other` vector — drained empty). -/
def appendFM [LinearOrder K] (self other : List (K × V)) :
    List (K × V) × List (K × V) :=
  (other.foldl (fun acc p => (insertFM acc p.1 p.2).1) self, [])

/-- Embeds `Vec::dedup_by(|kv1, kv2| kv1.0 == kv2.0)` keeps the first element of
every run of adjacent pairs with equal keys; `p` is the currently kept run
head. -/
def dedupRun [DecidableEq K] (p : K × V) : List (K × V) → List (K × V)
  | [] => [p]
  | q :: rest => if q.1 = p.1 then dedupRun p rest else p :: dedupRun q rest

/-- Embeds `Vec::dedup_by` on the whole vector. -/
def dedupByKey [DecidableEq K] : List (K × V) → List (K × V)
  | [] => []
  | p :: rest => dedupRun p rest

/-- Embeds `impl FromIterator for FlatMap`: collect, stable-sort by key
(`sort_by(|kv1, kv2| kv1.0.cmp(&kv2.0))`, embedded as `mergeSort`, which is
stable), then dedup adjacent equal keys. -/
def fromIterFM [LinearOrder K] (l : List (K × V)) : List (K × V) :=
  dedupByKey (l.mergeSort fun a b => decide (a.1 ≤ b.1))

/-- One mutating step for claim C2: a public `insert`, `remove`, or an
insertion through the `Entry` API (`entry(k)` followed by
`VacantEntry::insert` when vacant — an `Occupied` entry inserts nothing). -/
inductive Op (K : Type u) (V : Type v) where
  | insert (k : K) (v : V)
  | remove (k : K)
  | entryInsert (k : K) (v : V)

/-- Apply one operation to the backing vector. -/
def applyOp [LinearOrder K] (m : List (K × V)) : Op K V → List (K × V)
  | .insert k v => (insertFM m k v).1
  | .remove k => (removeFM m k).1
  | .entryInsert k v =>
    match entryFM m k with
    | .vacant i key => (vacantInsert m i key v).1
    | .occupied _ => m

/-- Run a sequence of operations on the initially empty map. -/
def runOps [LinearOrder K] (ops : List (Op K V)) : List (K × V) :=
  ops.foldl applyOp []

/-! ## Behaviour of the operations on I1 vectors -/

theorem bsLoop_error_of_absent [LinearOrder K] {q : K} {l : List (K × V)}
    (habs : ∀ p ∈ l, p.1 ≠ q) :
    ∀ fuel left right, ∃ j, bsLoop q l fuel left right = .error j := by
  intro fuel
  induction fuel with
  | zero => exact fun left right => ⟨left, rfl⟩
  | succ fuel ih =>
    intro left right
    by_cases h : left < right
    · rcases hget : l[left + (right - left) / 2]? with _ | p
      · exact ⟨left, by simp [bsLoop, if_pos h, hget]⟩
      · have hne : p.1 ≠ q := habs p (List.getElem?_mem hget)
        rcases lt_trichotomy p.1 q with hlt | heq | hgt
        · obtain ⟨j, hj⟩ := ih (left + (right - left) / 2 + 1) right
          exact ⟨j, by simp [bsLoop, if_pos h, hget, compare_lt_iff_lt.2 hlt, hj]⟩
        · exact absurd heq hne
        · obtain ⟨j, hj⟩ := ih left (left + (right - left) / 2)
          exact ⟨j, by simp [bsLoop, if_pos h, hget, compare_gt_iff_gt.2 hgt, hj]⟩
    · exact ⟨left, by simp [bsLoop, if_neg h]⟩

theorem binarySearch_error_of_absent [LinearOrder K] {q : K} {l : List (K × V)}
    (habs : ∀ p ∈ l, p.1 ≠ q) : ∃ j, binarySearch q l = .error j :=
  bsLoop_error_of_absent habs l.length 0 l.length

theorem set_get?_eq {α : Type w} :
    ∀ (l : List α) (i : Nat) (a : α), l.get? i = some a → l.set i a = l
  | [], _, _, h => by cases h
  | b :: l, 0, a, h => by
    have : b = a := by simpa using h
    simp [this]
  | b :: l, i + 1, a, h => by
    simp only [List.set_cons_succ]
    rw [set_get?_eq l i a (by simpa using h)]

theorem I1_iff_keys [LinearOrder K] {m : List (K × V)} :
    I1 m ↔ (m.map Prod.fst).Pairwise (· < ·) := by
  rw [I1, List.pairwise_map]

theorem I1_set_value [LinearOrder K] {m : List (K × V)} (hs : I1 m) {i : Nat} {k : K}
    {v₀ : V} (hget : m.get? i = some (k, v₀)) (v : V) : I1 (m.set i (k, v)) := by
  have hkeys : (m.set i (k, v)).map Prod.fst = m.map Prod.fst := by
    rw [List.map_set]
    exact set_get?_eq _ _ _
      (by rw [List.get?_eq_getElem?, List.getElem?_map, ← List.get?_eq_getElem?, hget]; rfl)
  exact I1_iff_keys.2 (hkeys ▸ I1_iff_keys.1 hs)

theorem I1_insertIdx_countLt [LinearOrder K] {m : List (K × V)} (hs : I1 m) (k : K) (v : V)
    (habs : ∀ p ∈ m, p.1 ≠ k) :
    I1 (m.insertIdx (m.countP fun p => decide (p.1 < k)) (k, v)) := by
  induction m with
  | nil => simp [I1]
  | cons hd rest ih =>
    obtain ⟨k₀, v₀⟩ := hd
    rw [I1, List.pairwise_cons] at hs
    obtain ⟨hhead, hrest⟩ := hs
    have hne : k₀ ≠ k := habs _ (List.mem_cons_self _ _)
    by_cases hlt : k₀ < k
    · have hcnt : (((k₀, v₀) :: rest).countP fun p => decide (p.1 < k)) =
          (rest.countP fun p => decide (p.1 < k)) + 1 := by
        simp [List.countP_cons, hlt]
      rw [hcnt, List.insertIdx_succ_cons, I1, List.pairwise_cons]
      constructor
      · intro p hp
        rcases (List.mem_insertIdx (List.countP_le_length _)).1 hp with rfl | hpm
        · exact hlt
        · exact hhead p hpm
      · exact ih hrest fun p hp => habs p (List.mem_cons_of_mem _ hp)
    · have hklt : k < k₀ := lt_of_le_of_ne (not_lt.1 hlt) (Ne.symm hne)
      have hcnt : (((k₀, v₀) :: rest).countP fun p => decide (p.1 < k)) = 0 := by
        rw [List.countP_eq_zero]
        intro p hp
        rcases List.mem_cons.1 hp with rfl | hpm
        · simpa using hlt
        · simpa using not_lt.2 (le_of_lt (lt_trans hklt (hhead p hpm)))
      rw [hcnt, List.insertIdx_zero, I1, List.pairwise_cons]
      refine ⟨?_, List.pairwise_cons.2 ⟨hhead, hrest⟩⟩
      intro p hp
      rcases List.mem_cons.1 hp with rfl | hpm
      · exact hklt
      · exact lt_trans hklt (hhead p hpm)

theorem insertFM_absent [LinearOrder K] {m : List (K × V)} (hs : I1 m) {k : K} (v : V)
    (habs : ∀ p ∈ m, p.1 ≠ k) :
    insertFM m k v = (m.insertIdx (m.countP fun p => decide (p.1 < k)) (k, v), none) := by
  unfold insertFM
  rw [binarySearch_eq_spec hs, specLookup_error_count habs]

theorem insertFM_present [LinearOrder K] {m : List (K × V)} (hs : I1 m) {k : K} (v : V)
    {i : Nat} {v₀ : V} (hget : m.get? i = some (k, v₀)) :
    insertFM m k v = (m.set i (k, v), some v₀) := by
  unfold insertFM
  rw [binarySearch_eq_spec hs, specLookup_ok_of_get hs hget rfl]
  show (match m.get? i with
        | some p => (m.set i (p.1, v), some p.2)
        | none => (m, none)) = (m.set i (k, v), some v₀)
  rw [hget]

theorem I1_insertFM [LinearOrder K] {m : List (K × V)} (hs : I1 m) (k : K) (v : V) :
    I1 (insertFM m k v).1 := by
  by_cases habs : ∀ p ∈ m, p.1 ≠ k
  · rw [insertFM_absent hs v habs]
    exact I1_insertIdx_countLt hs k v habs
  · push_neg at habs
    obtain ⟨p, hpm, hpk⟩ := habs
    obtain ⟨⟨i, hi⟩, hgeteq⟩ := List.mem_iff_get.1 hpm
    have hget : m.get? i = some (k, p.2) := by
      rw [List.get?_eq_get hi, hgeteq, ← hpk]
    rw [insertFM_present hs v hget]
    exact I1_set_value hs hget v

theorem removeFM_absent [LinearOrder K] {m : List (K × V)} {q : K}
    (habs : ∀ p ∈ m, p.1 ≠ q) : removeFM m q = (m, none) := by
  unfold removeFM
  obtain ⟨j, hj⟩ := binarySearch_error_of_absent habs
  rw [hj]

theorem removeFM_present [LinearOrder K] {m : List (K × V)} (hs : I1 m) {q : K}
    {i : Nat} {v₀ : V} (hget : m.get? i = some (q, v₀)) :
    removeFM m q = (m.eraseIdx i, some v₀) := by
  unfold removeFM
  rw [binarySearch_eq_spec hs, specLookup_ok_of_get hs hget rfl]
  show (match m.get? i with
        | some p => (m.eraseIdx i, some p.2)
        | none => (m, none)) = (m.eraseIdx i, some v₀)
  rw [hget]

theorem I1_removeFM [LinearOrder K] {m : List (K × V)} (hs : I1 m) (q : K) :
    I1 (removeFM m q).1 := by
  unfold removeFM
  rcases hbs : binarySearch q m with j | i
  · exact hs
  · rcases hget : m.get? i with _ | p <;> simp only [hget]
    · exact hs
    · exact List.Pairwise.sublist (List.eraseIdx_sublist m i) hs

theorem I1_applyOp [LinearOrder K] {m : List (K × V)} (hs : I1 m) (op : Op K V) :
    I1 (applyOp m op) := by
  cases op with
  | insert k v =>
    simp only [applyOp]
    exact I1_insertFM hs k v
  | remove k =>
    simp only [applyOp]
    exact I1_removeFM hs k
  | entryInsert k v =>
    simp only [applyOp]
    unfold entryFM
    rcases hbs : binarySearch k m with j | i
    · rw [binarySearch_eq_spec hs] at hbs
      have habs := specLookup_error_absent hbs
      have hcnt := specLookup_error_count habs
      rw [hbs] at hcnt
      have hj : j = m.countP fun p => decide (p.1 < k) := Except.error.inj hcnt
      show I1 (m.insertIdx j (k, v))
      rw [hj]
      exact I1_insertIdx_countLt hs k v habs
    · exact hs

/-- C2: starting from the empty map (default BinarySearch strategy), after
every sequence of `insert` / `remove` / entry-API insertions the backing
sequence is strictly ascending by key (invariant I1).  Since `ops` ranges
over all sequences, this covers the state after each individual
operation. -/
theorem I1_after_ops [LinearOrder K] (ops : List (Op K V)) : I1 (runOps ops) := by
  suffices h : ∀ (m : List (K × V)), I1 m → I1 (ops.foldl applyOp m) from
    h [] (by simp [I1])
  induction ops with
  | nil => exact fun m hm => hm
  | cons op rest ih => exact fun m hm => ih _ (I1_applyOp hm op)

theorem getFM_absent [LinearOrder K] {m : List (K × V)} {q : K}
    (habs : ∀ p ∈ m, p.1 ≠ q) : getFM m q = none := by
  unfold getFM
  obtain ⟨j, hj⟩ := binarySearch_error_of_absent habs
  rw [hj]

theorem getFM_present [LinearOrder K] {m : List (K × V)} (hs : I1 m) {q : K}
    {i : Nat} {v₀ : V} (hget : m.get? i = some (q, v₀)) : getFM m q = some v₀ := by
  unfold getFM
  rw [binarySearch_eq_spec hs, specLookup_ok_of_get hs hget rfl]
  show (m.get? i).map Prod.snd = some v₀
  rw [hget]
  rfl

/-- From a pair of `m` whose key is `q`, produce its `get?` form. -/
theorem get?_of_mem_key {m : List (K × V)} {p : K × V} {q : K}
    (hpm : p ∈ m) (hpk : p.1 = q) : ∃ i, m.get? i = some (q, p.2) := by
  obtain ⟨⟨i, hi⟩, hgeteq⟩ := List.mem_iff_get.1 hpm
  exact ⟨i, by rw [List.get?_eq_get hi, hgeteq, show p = (q, p.2) from by rw [← hpk]]⟩

/-- C5: `insert(k, v)` returns the previous value iff `k` was already
present — in which case the value is replaced in place (`set`) and the
length is unchanged — and otherwise returns `none` and grows the length by
exactly one. -/
theorem insert_contract [LinearOrder K] (m : List (K × V)) (k : K) (v : V) (hs : I1 m) :
    ((insertFM m k v).2 = none ↔ ∀ p ∈ m, p.1 ≠ k) ∧
    ((∀ p ∈ m, p.1 ≠ k) →
      (insertFM m k v).2 = none ∧ (insertFM m k v).1.length = m.length + 1) ∧
    (∀ i v₀, m.get? i = some (k, v₀) →
      (insertFM m k v).2 = some v₀ ∧ (insertFM m k v).1 = m.set i (k, v) ∧
      (insertFM m k v).1.length = m.length) := by
  refine ⟨⟨?_, ?_⟩, ?_, ?_⟩
  · intro hnone
    by_contra hnabs
    push_neg at hnabs
    obtain ⟨p, hpm, hpk⟩ := hnabs
    obtain ⟨i, hget⟩ := get?_of_mem_key hpm hpk
    rw [insertFM_present hs v hget] at hnone
    cases hnone
  · intro habs
    rw [insertFM_absent hs v habs]
  · intro habs
    rw [insertFM_absent hs v habs]
    exact ⟨rfl, List.length_insertIdx _ _ (List.countP_le_length _)⟩
  · intro i v₀ hget
    rw [insertFM_present hs v hget]
    exact ⟨rfl, rfl, List.length_set m i _⟩

/-- Witness for `insert_contract` on the I1 map `egGap`. -/
theorem insert_contract_witness :
    I1 egGap ∧
    (((insertFM egGap 3 99).2 = none ↔ ∀ p ∈ egGap, p.1 ≠ 3) ∧
     ((∀ p ∈ egGap, p.1 ≠ 3) →
       (insertFM egGap 3 99).2 = none ∧ (insertFM egGap 3 99).1.length = egGap.length + 1) ∧
     (∀ i v₀, egGap.get? i = some (3, v₀) →
       (insertFM egGap 3 99).2 = some v₀ ∧ (insertFM egGap 3 99).1 = egGap.set i (3, 99) ∧
       (insertFM egGap 3 99).1.length = egGap.length)) :=
  ⟨by decide, insert_contract egGap 3 99 (by decide)⟩

/-- C6: `get`, `contains_key` and `remove` return an empty result iff the
queried key is absent; on a present key, `get` returns its value and
`remove` returns the value while deleting the pair. -/
theorem lookup_contract [LinearOrder K] (m : List (K × V)) (q : K) (hs : I1 m) :
    (getFM m q = none ↔ ∀ p ∈ m, p.1 ≠ q) ∧
    (containsKey m q = false ↔ ∀ p ∈ m, p.1 ≠ q) ∧
    ((removeFM m q).2 = none ↔ ∀ p ∈ m, p.1 ≠ q) ∧
    (∀ i v₀, m.get? i = some (q, v₀) →
      getFM m q = some v₀ ∧
      (removeFM m q).2 = some v₀ ∧ (removeFM m q).1 = m.eraseIdx i) := by
  have hget_iff : getFM m q = none ↔ ∀ p ∈ m, p.1 ≠ q := by
    constructor
    · intro hnone
      by_contra hnabs
      push_neg at hnabs
      obtain ⟨p, hpm, hpk⟩ := hnabs
      obtain ⟨i, hget⟩ := get?_of_mem_key hpm hpk
      rw [getFM_present hs hget] at hnone
      cases hnone
    · exact getFM_absent
  refine ⟨hget_iff, ?_, ⟨?_, ?_⟩, ?_⟩
  · rw [containsKey, ← Bool.not_eq_true, Option.isSome_iff_ne_none, not_not]
    exact hget_iff
  · intro hnone
    by_contra hnabs
    push_neg at hnabs
    obtain ⟨p, hpm, hpk⟩ := hnabs
    obtain ⟨i, hget⟩ := get?_of_mem_key hpm hpk
    rw [removeFM_present hs hget] at hnone
    cases hnone
  · intro habs
    rw [removeFM_absent habs]
  · intro i v₀ hget
    rw [getFM_present hs hget, removeFM_present hs hget]
    exact ⟨rfl, rfl, rfl⟩

/-- Witness for `lookup_contract` on the I1 map `egGap`. -/
theorem lookup_contract_witness :
    I1 egGap ∧
    ((getFM egGap 3 = none ↔ ∀ p ∈ egGap, p.1 ≠ 3) ∧
     (containsKey egGap 3 = false ↔ ∀ p ∈ egGap, p.1 ≠ 3) ∧
     ((removeFM egGap 3).2 = none ↔ ∀ p ∈ egGap, p.1 ≠ 3) ∧
     (∀ i v₀, egGap.get? i = some (3, v₀) →
       getFM egGap 3 = some v₀ ∧
       (removeFM egGap 3).2 = some v₀ ∧ (removeFM egGap 3).1 = egGap.eraseIdx i)) :=
  ⟨by decide, lookup_contract egGap 3 (by decide)⟩

/-- C7: removing an absent key returns `none` and leaves the backing
sequence (hence the length) completely unchanged. -/
theorem remove_absent_unchanged [LinearOrder K] (m : List (K × V)) (q : K) (_hs : I1 m)
    (habs : ∀ p ∈ m, p.1 ≠ q) : removeFM m q = (m, none) :=
  removeFM_absent habs

/-- Witness for `remove_absent_unchanged`: removing absent key 3 from `egGap`. -/
theorem remove_absent_unchanged_witness :
    (I1 egGap ∧ ∀ p ∈ egGap, p.1 ≠ 3) ∧ removeFM egGap 3 = (egGap, none) :=
  ⟨by decide, remove_absent_unchanged egGap 3 (by decide) (by decide)⟩

/-- C4: `split_off` with an absent key hits the `Err(_) => vec![]` arm:
it returns an empty map and leaves the original untouched, regardless of
whether some existing keys are greater than the query. -/
theorem splitOff_absent [LinearOrder K] (m : List (K × V)) (q : K)
    (habs : ∀ p ∈ m, p.1 ≠ q) : splitOffFM m q = (m, []) := by
  unfold splitOffFM
  obtain ⟨j, hj⟩ := binarySearch_error_of_absent habs
  rw [hj]

/-- Witness for `splitOff_absent`: key 3 is absent from `egGap` although
key 4 > 3 is present. -/
theorem splitOff_absent_witness :
    (∀ p ∈ egGap, p.1 ≠ 3) ∧ splitOffFM egGap 3 = (egGap, []) :=
  ⟨by decide, splitOff_absent egGap 3 (by decide)⟩

/-- Counterexample to C3 as stated: on the I1 map `egGap` with keys
{1, 2, 4} and query 3, the claim demands that the original retain exactly
the pairs with key < 3, but the code keeps everything (and returns the
empty map), since 3 is absent. -/
theorem splitOff_partition_cex :
    I1 egGap ∧ splitOffFM egGap 3 = (egGap, []) ∧
    ¬ (∀ p ∈ (splitOffFM egGap 3).1, p.1 < 3) := by decide

/-- C3 amended: for every map satisfying I1 and every key `q` PRESENT in
the map, `split_off` partitions the sequence at the index of `q` (the first
index whose key is ≥ `q`): the tail — all pairs with key ≥ `q` — becomes
the returned map, the original retains the pairs with key < `q`, and the
two results together are exactly the original pairs. -/
theorem splitOff_present_partition [LinearOrder K] (m : List (K × V)) (q : K) (hs : I1 m)
    (hp : ∃ p ∈ m, p.1 = q) :
    (splitOffFM m q).1 ++ (splitOffFM m q).2 = m ∧
    (∀ p ∈ (splitOffFM m q).1, p.1 < q) ∧
    (∀ p ∈ (splitOffFM m q).2, q ≤ p.1) := by
  obtain ⟨p, hpm, hpk⟩ := hp
  obtain ⟨i, hget⟩ := get?_of_mem_key hpm hpk
  have hok : specLookup q m = .ok i := specLookup_ok_of_get hs hget rfl
  have hsplit : splitOffFM m q = (m.take i, m.drop i) := by
    unfold splitOffFM
    rw [binarySearch_eq_spec hs, hok]
  have hgetE : m[i]? = some (q, p.2) := by
    rw [← List.get?_eq_getElem?]
    exact hget
  obtain ⟨hi, hieq⟩ := List.getElem?_eq_some.1 hgetE
  have hkey : m[i].1 = q := by rw [hieq]
  have hpg := List.pairwise_iff_getElem.1 hs
  rw [hsplit]
  refine ⟨List.take_append_drop i m, ?_, ?_⟩
  · intro p' hp'
    obtain ⟨j, hj, hjp⟩ := List.mem_iff_getElem.1 hp'
    have hji : j < i := by
      simp only [List.length_take] at hj
      omega
    rw [List.getElem_take] at hjp
    rw [← hjp]
    rw [← hkey]
    exact hpg j i (by omega) hi hji
  · intro p' hp'
    obtain ⟨j, hj, hjp⟩ := List.mem_iff_getElem.1 hp'
    have hjlen : i + j < m.length := by
      simp only [List.length_drop] at hj
      omega
    rw [List.getElem_drop] at hjp
    rcases Nat.eq_zero_or_pos j with rfl | hjpos
    · rw [← hjp]
      have : m[i + 0] = m[i] := by simp
      rw [this, hkey]
    · rw [← hjp, ← hkey]
      exact le_of_lt (hpg i (i + j) hi hjlen (by omega))

/-- A concrete I1 sequence with keys {1, 2, 3, 4, 5}, the spec's own split
example. -/
def egFive : List (Nat × Nat) := [(1, 10), (2, 20), (3, 30), (4, 40), (5, 50)]

/-- Witness for `splitOff_present_partition`: the spec's own example,
keys {1, 2, 3, 4, 5} split at the present key 3. -/
theorem splitOff_present_partition_witness :
    (I1 egFive ∧ ∃ p ∈ egFive, p.1 = 3) ∧
    ((splitOffFM egFive 3).1 ++ (splitOffFM egFive 3).2 = egFive ∧
     (∀ p ∈ (splitOffFM egFive 3).1, p.1 < 3) ∧
     (∀ p ∈ (splitOffFM egFive 3).2, 3 ≤ p.1)) :=
  ⟨⟨by decide, ⟨(3, 30), by decide, rfl⟩⟩,
   splitOff_present_partition egFive 3 (by decide) ⟨(3, 30), by decide, rfl⟩⟩

theorem insertIdx_perm_cons {α : Type w} (a : α) :
    ∀ (l : List α) (n : Nat), n ≤ l.length → (l.insertIdx n a).Perm (a :: l)
  | _, 0, _ => by simp [List.insertIdx_zero]
  | [], n + 1, h => by simp at h
  | b :: l, n + 1, h => by
    rw [List.insertIdx_succ_cons]
    exact ((insertIdx_perm_cons a l n (by simpa using h)).cons b).trans
      (List.Perm.swap a b l)

/-- C10: `entry(k).or_insert(d)` returns (the index of) a reference to the
value stored at `k` afterwards.  If `k` is present at index `i`, the map is
unchanged and the existing value is referenced; if `k` is absent, exactly
the pair `(k, d)` is inserted (the result is a permutation of `(k, d) :: m`)
and the reference points at it.  For `or_insert_with`, the producer — a
state transformer, so its invocations are observable — is never run in the
`Occupied` case (final state `s`) and is run exactly once in the `Vacant`
case (final state `(f s).2`, inserted value `(f s).1`). -/
theorem entry_or_insert_contract [LinearOrder K] {σ : Type w} (m : List (K × V)) (k : K)
    (d : V) (f : σ → V × σ) (s : σ) (hs : I1 m) :
    (∀ i v₀, m.get? i = some (k, v₀) →
       orInsert m k d = (m, i) ∧
       (orInsert m k d).1.get? (orInsert m k d).2 = some (k, v₀) ∧
       orInsertWith m k f s = ((m, i), s)) ∧
    ((∀ p ∈ m, p.1 ≠ k) →
       (orInsert m k d).1.Perm ((k, d) :: m) ∧
       (orInsert m k d).1.get? (orInsert m k d).2 = some (k, d) ∧
       orInsertWith m k f s =
         ((m.insertIdx (m.countP fun p => decide (p.1 < k)) (k, (f s).1),
           m.countP fun p => decide (p.1 < k)), (f s).2)) := by
  constructor
  · intro i v₀ hget
    have hok : binarySearch k m = .ok i := by
      rw [binarySearch_eq_spec hs]
      exact specLookup_ok_of_get hs hget rfl
    have he : entryFM m k = .occupied i := by
      unfold entryFM
      rw [hok]
    refine ⟨?_, ?_, ?_⟩
    · unfold orInsert
      rw [he]
    · unfold orInsert
      rw [he]
      exact hget
    · unfold orInsertWith
      rw [he]
  · intro habs
    have herr : binarySearch k m = .error (m.countP fun p => decide (p.1 < k)) := by
      rw [binarySearch_eq_spec hs]
      exact specLookup_error_count habs
    have he : entryFM m k = .vacant (m.countP fun p => decide (p.1 < k)) k := by
      unfold entryFM
      rw [herr]
    have hcnt : (m.countP fun p => decide (p.1 < k)) ≤ m.length :=
      List.countP_le_length _
    have hlen : (m.countP fun p => decide (p.1 < k)) <
        (m.insertIdx (m.countP fun p => decide (p.1 < k)) (k, d)).length := by
      rw [List.length_insertIdx _ _ hcnt]
      omega
    refine ⟨?_, ?_, ?_⟩
    · unfold orInsert
      rw [he]
      exact insertIdx_perm_cons (k, d) m _ hcnt
    · unfold orInsert
      rw [he]
      show (m.insertIdx (m.countP fun p => decide (p.1 < k)) (k, d)).get?
        (m.countP fun p => decide (p.1 < k)) = some (k, d)
      rw [List.get?_eq_getElem?, List.getElem?_eq_getElem hlen,
        List.getElem_insertIdx_self m (k, d) _ hcnt]
    · unfold orInsertWith
      rw [he]
      rfl

/-- Witness for `entry_or_insert_contract` on the I1 map `egGap` with a
counting producer over state `Nat`. -/
theorem entry_or_insert_contract_witness :
    I1 egGap ∧
    ((∀ i v₀, egGap.get? i = some (2, v₀) →
       orInsert egGap 2 99 = (egGap, i) ∧
       (orInsert egGap 2 99).1.get? (orInsert egGap 2 99).2 = some (2, v₀) ∧
       orInsertWith egGap 2 (fun s : Nat => (99, s + 1)) 0 = ((egGap, i), 0)) ∧
     ((∀ p ∈ egGap, p.1 ≠ 2) →
       (orInsert egGap 2 99).1.Perm ((2, 99) :: egGap) ∧
       (orInsert egGap 2 99).1.get? (orInsert egGap 2 99).2 = some (2, 99) ∧
       orInsertWith egGap 2 (fun s : Nat => (99, s + 1)) 0 =
         ((egGap.insertIdx (egGap.countP fun p => decide (p.1 < 2)) (2, 99),
           egGap.countP fun p => decide (p.1 < 2)), 1))) :=
  ⟨by decide, entry_or_insert_contract egGap 2 99 (fun s : Nat => (99, s + 1)) 0 (by decide)⟩

/-! ## Membership characterisations, used for `append` (C9) -/

theorem getFM_none_iff [LinearOrder K] {m : List (K × V)} (hs : I1 m) {q : K} :
    getFM m q = none ↔ ∀ p ∈ m, p.1 ≠ q := by
  constructor
  · intro hnone
    by_contra hnabs
    push_neg at hnabs
    obtain ⟨p, hpm, hpk⟩ := hnabs
    obtain ⟨i, hget⟩ := get?_of_mem_key hpm hpk
    rw [getFM_present hs hget] at hnone
    cases hnone
  · exact getFM_absent

theorem getFM_some_iff [LinearOrder K] {m : List (K × V)} (hs : I1 m) {q : K} {v : V} :
    getFM m q = some v ↔ (q, v) ∈ m := by
  constructor
  · intro h
    unfold getFM at h
    rcases hbs : binarySearch q m with j | i <;> rw [hbs] at h
    · cases h
    · rw [binarySearch_eq_spec hs] at hbs
      obtain ⟨p, hget, hpk⟩ := specLookup_ok_get hbs
      simp only [hget] at h
      have hv : p.2 = v := by simpa using h
      have hp : p = (q, v) := by
        obtain ⟨a, b⟩ := p
        simp only at hpk hv
        rw [hpk, hv]
      exact hp ▸ List.get?_mem hget
  · intro hmem
    obtain ⟨i, hget⟩ := get?_of_mem_key hmem rfl
    exact getFM_present hs hget

theorem mem_set_iff {α : Type w} (l : List α) (i : Nat) (hi : i < l.length) (a x : α) :
    x ∈ l.set i a ↔ x = a ∨ ∃ j, ∃ hj : j < l.length, j ≠ i ∧ l[j] = x := by
  constructor
  · intro hx
    obtain ⟨j, hj, hjx⟩ := List.mem_iff_getElem.1 hx
    have hjlen : j < l.length := by simpa using hj
    by_cases hji : j = i
    · subst hji
      rw [List.getElem_set_self] at hjx
      exact Or.inl hjx.symm
    · rw [List.getElem_set_ne (Ne.symm hji)] at hjx
      exact Or.inr ⟨j, hjlen, hji, hjx⟩
  · rintro (rfl | ⟨j, hj, hji, rfl⟩)
    · exact List.mem_set l i hi _
    · have hj2 : j < (l.set i a).length := by simpa using hj
      have he : (l.set i a)[j] = l[j] := List.getElem_set_ne (Ne.symm hji) hj2
      exact he ▸ List.getElem_mem hj2

/-- All pairs of `(insertFM m k v).1`: the new pair `(k, v)`, plus every old
pair whose key differs from `k`. -/
theorem mem_insertFM [LinearOrder K] {m : List (K × V)} (hs : I1 m) (k : K) (v : V)
    (k' : K) (v' : V) :
    (k', v') ∈ (insertFM m k v).1 ↔
      (k' = k ∧ v' = v) ∨ ((k', v') ∈ m ∧ k' ≠ k) := by
  by_cases habs : ∀ p ∈ m, p.1 ≠ k
  · rw [insertFM_absent hs v habs]
    show (k', v') ∈ m.insertIdx _ (k, v) ↔ _
    rw [List.mem_insertIdx (List.countP_le_length _)]
    constructor
    · rintro (h | h)
      · exact Or.inl ⟨congrArg Prod.fst h, congrArg Prod.snd h⟩
      · exact Or.inr ⟨h, habs _ h⟩
    · rintro (⟨rfl, rfl⟩ | ⟨h, _⟩)
      · exact Or.inl rfl
      · exact Or.inr h
  · push_neg at habs
    obtain ⟨p, hpm, hpk⟩ := habs
    obtain ⟨i, hget⟩ := get?_of_mem_key hpm hpk
    have hgetE : m[i]? = some (k, p.2) := by
      rw [← List.get?_eq_getElem?]
      exact hget
    obtain ⟨hi, hieq⟩ := List.getElem?_eq_some.1 hgetE
    have hpg := List.pairwise_iff_getElem.1 hs
    rw [insertFM_present hs v hget]
    show (k', v') ∈ m.set i (k, v) ↔ _
    rw [mem_set_iff m i hi (k, v) (k', v')]
    constructor
    · rintro (h | ⟨j, hj, hji, hjx⟩)
      · exact Or.inl ⟨congrArg Prod.fst h, congrArg Prod.snd h⟩
      · refine Or.inr ⟨hjx ▸ List.getElem_mem hj, ?_⟩
        intro hk'
        have hne : m[j].1 ≠ m[i].1 := by
          rcases Nat.lt_or_ge j i with hlt | hge
          · exact (hpg j i hj hi hlt).ne
          · exact (hpg i j hi hj (by omega)).ne'
        rw [hjx, hieq] at hne
        exact hne (by simpa using hk')
    · rintro (⟨rfl, rfl⟩ | ⟨h, hne⟩)
      · exact Or.inl rfl
      · obtain ⟨j, hj, hjx⟩ := List.mem_iff_getElem.1 h
        refine Or.inr ⟨j, hj, ?_, hjx⟩
        intro hji
        subst hji
        rw [hieq] at hjx
        exact hne (by simpa using congrArg Prod.fst hjx.symm)

theorem getFM_insertFM_self [LinearOrder K] {m : List (K × V)} (hs : I1 m) (k : K) (v : V) :
    getFM (insertFM m k v).1 k = some v := by
  rw [getFM_some_iff (I1_insertFM hs k v), mem_insertFM hs k v]
  exact Or.inl ⟨rfl, rfl⟩

theorem getFM_insertFM_other [LinearOrder K] {m : List (K × V)} (hs : I1 m) (k : K) (v : V)
    {k' : K} (hne : k' ≠ k) : getFM (insertFM m k v).1 k' = getFM m k' := by
  rcases hg : getFM m k' with _ | w
  · rw [getFM_none_iff (I1_insertFM hs k v)]
    intro p hp
    obtain ⟨a, b⟩ := p
    rcases (mem_insertFM hs k v a b).1 hp with ⟨rfl, _⟩ | ⟨hm, _⟩
    · simpa using fun h => hne h.symm
    · exact (getFM_none_iff hs).1 hg _ hm
  · rw [getFM_some_iff (I1_insertFM hs k v), mem_insertFM hs k v]
    exact Or.inr ⟨(getFM_some_iff hs).1 hg, hne⟩

theorem keys_insertFM [LinearOrder K] {m : List (K × V)} (hs : I1 m) (k : K) (v : V)
    (k₀ : K) :
    k₀ ∈ (insertFM m k v).1.map Prod.fst ↔ k₀ = k ∨ k₀ ∈ m.map Prod.fst := by
  constructor
  · intro h
    rw [List.mem_map] at h
    obtain ⟨⟨a, b⟩, hr, rfl⟩ := h
    rcases (mem_insertFM hs k v a b).1 hr with ⟨rfl, _⟩ | ⟨hm, _⟩
    · exact Or.inl rfl
    · exact Or.inr (List.mem_map.2 ⟨(a, b), hm, rfl⟩)
  · rintro (rfl | h)
    · exact List.mem_map.2 ⟨(k₀, v), (mem_insertFM hs k₀ v k₀ v).2 (Or.inl ⟨rfl, rfl⟩), rfl⟩
    · rw [List.mem_map] at h
      obtain ⟨⟨a, b⟩, hm, rfl⟩ := h
      by_cases hak : a = k
      · subst hak
        exact List.mem_map.2 ⟨(a, v), (mem_insertFM hs a v a v).2 (Or.inl ⟨rfl, rfl⟩), rfl⟩
      · exact List.mem_map.2 ⟨(a, b), (mem_insertFM hs k v a b).2 (Or.inr ⟨hm, hak⟩), rfl⟩

theorem I1_append_fold [LinearOrder K] :
    ∀ (other self : List (K × V)), I1 self →
      I1 (other.foldl (fun acc p => (insertFM acc p.1 p.2).1) self)
  | [], _, hs => hs
  | p :: rest, _, hs => I1_append_fold rest _ (I1_insertFM hs p.1 p.2)

theorem append_fold_get_notin [LinearOrder K] :
    ∀ (other self : List (K × V)), I1 self → ∀ (q : K), (∀ p ∈ other, p.1 ≠ q) →
      getFM (other.foldl (fun acc p => (insertFM acc p.1 p.2).1) self) q = getFM self q
  | [], _, _, _, _ => rfl
  | p :: rest, self, hs, q, habs => by
    rw [List.foldl_cons,
      append_fold_get_notin rest _ (I1_insertFM hs p.1 p.2) q
        (fun r hr => habs r (List.mem_cons_of_mem _ hr))]
    exact getFM_insertFM_other hs p.1 p.2
      fun h => habs p (List.mem_cons_self _ _) h.symm

theorem append_fold_get_mem [LinearOrder K] :
    ∀ (other self : List (K × V)), I1 self → I1 other → ∀ (k : K) (v : V),
      (k, v) ∈ other →
      getFM (other.foldl (fun acc p => (insertFM acc p.1 p.2).1) self) k = some v
  | [], _, _, _, _, _, hmem => absurd hmem (List.not_mem_nil _)
  | p :: rest, self, hs, ho, k, v, hmem => by
    rw [List.foldl_cons]
    rw [I1, List.pairwise_cons] at ho
    obtain ⟨hhead, hrest⟩ := ho
    rcases List.mem_cons.1 hmem with rfl | hmem'
    · rw [append_fold_get_notin rest _ (I1_insertFM hs (k, v).1 (k, v).2) k
        fun r hr => (hhead r hr).ne']
      exact getFM_insertFM_self hs k v
    · exact append_fold_get_mem rest _ (I1_insertFM hs p.1 p.2) hrest k v hmem'

theorem append_fold_keys [LinearOrder K] :
    ∀ (other self : List (K × V)), I1 self → ∀ (k₀ : K),
      (k₀ ∈ (other.foldl (fun acc p => (insertFM acc p.1 p.2).1) self).map Prod.fst ↔
        k₀ ∈ self.map Prod.fst ∨ k₀ ∈ other.map Prod.fst)
  | [], _, _, k₀ => by simp
  | p :: rest, self, hs, k₀ => by
    rw [List.foldl_cons, append_fold_keys rest _ (I1_insertFM hs p.1 p.2) k₀,
      keys_insertFM hs p.1 p.2 k₀]
    simp only [List.map_cons, List.mem_cons]
    tauto

/-- C9: `self.append(&mut other)` drains `other` (leaving it empty) and
inserts each of its pairs into `self` in key order.  Afterwards `self`
satisfies I1, its key set is exactly the union of the two key sets, every
pair of `other` is stored in `self` (so on a key collision `other`'s value
wins), and a key of `self` not occurring in `other` keeps its value. -/
theorem append_contract [LinearOrder K] (self other : List (K × V))
    (h1 : I1 self) (h2 : I1 other) :
    I1 (appendFM self other).1 ∧
    (appendFM self other).2 = [] ∧
    (∀ k, k ∈ (appendFM self other).1.map Prod.fst ↔
       k ∈ self.map Prod.fst ∨ k ∈ other.map Prod.fst) ∧
    (∀ k v, (k, v) ∈ other → getFM (appendFM self other).1 k = some v) ∧
    (∀ k v, (k, v) ∈ self → (∀ p ∈ other, p.1 ≠ k) →
       getFM (appendFM self other).1 k = some v) := by
  refine ⟨I1_append_fold other self h1, rfl,
    fun k => append_fold_keys other self h1 k,
    fun k v hmem => append_fold_get_mem other self h1 h2 k v hmem, ?_⟩
  intro k v hmem habs
  show getFM (other.foldl (fun acc p => (insertFM acc p.1 p.2).1) self) k = some v
  rw [append_fold_get_notin other self h1 k habs]
  exact (getFM_some_iff h1).2 hmem

/-- A second concrete I1 sequence, sharing key 2 with `egGap`, used as the
`other` argument of the `append` witness. -/
def egOther : List (Nat × Nat) := [(2, 99), (3, 33)]

/-- Witness for `append_contract`: `egGap.append(egOther)` with the shared
key 2 and the fresh key 3. -/
theorem append_contract_witness :
    (I1 egGap ∧ I1 egOther) ∧
    (I1 (appendFM egGap egOther).1 ∧
     (appendFM egGap egOther).2 = [] ∧
     (∀ k, k ∈ (appendFM egGap egOther).1.map Prod.fst ↔
        k ∈ egGap.map Prod.fst ∨ k ∈ egOther.map Prod.fst) ∧
     (∀ k v, (k, v) ∈ egOther → getFM (appendFM egGap egOther).1 k = some v) ∧
     (∀ k v, (k, v) ∈ egGap → (∀ p ∈ egOther, p.1 ≠ k) →
        getFM (appendFM egGap egOther).1 k = some v)) :=
  ⟨⟨by decide, by decide⟩, append_contract egGap egOther (by decide) (by decide)⟩

/-! ## Bulk construction (C8): stable sort, then dedup of adjacent keys -/

theorem dedupRun_sublist [DecidableEq K] :
    ∀ (p : K × V) (l : List (K × V)), List.Sublist (dedupRun p l) (p :: l)
  | _, [] => List.Sublist.refl _
  | p, q :: rest => by
    unfold dedupRun
    by_cases h : q.1 = p.1
    · rw [if_pos h]
      exact (dedupRun_sublist p rest).trans
        ((List.sublist_cons_self q rest).cons₂ p)
    · rw [if_neg h]
      exact (dedupRun_sublist q rest).cons₂ p

theorem I1_dedupRun [LinearOrder K] :
    ∀ (p : K × V) (l : List (K × V)),
      List.Pairwise (fun a b : K × V => a.1 ≤ b.1) (p :: l) → I1 (dedupRun p l)
  | p, [], _ => by simp [dedupRun, I1]
  | p, q :: rest, h => by
    rw [List.pairwise_cons] at h
    obtain ⟨hp, hq⟩ := h
    unfold dedupRun
    by_cases hqp : q.1 = p.1
    · rw [if_pos hqp]
      apply I1_dedupRun p rest
      rw [List.pairwise_cons]
      exact ⟨fun r hr => hp r (List.mem_cons_of_mem _ hr), (List.pairwise_cons.1 hq).2⟩
    · rw [if_neg hqp]
      rw [I1, List.pairwise_cons]
      constructor
      · intro r hr
        have hrm : r ∈ q :: rest := (dedupRun_sublist q rest).subset hr
        have h1 : p.1 < q.1 :=
          lt_of_le_of_ne (hp q (List.mem_cons_self _ _)) fun h => hqp h.symm
        rcases List.mem_cons.1 hrm with rfl | hrrest
        · exact h1
        · exact lt_of_lt_of_le h1 ((List.pairwise_cons.1 hq).1 r hrrest)
      · exact I1_dedupRun q rest hq

theorem I1_dedupByKey [LinearOrder K] (l : List (K × V))
    (h : List.Pairwise (fun a b : K × V => a.1 ≤ b.1) l) : I1 (dedupByKey l) := by
  cases l with
  | nil => simp [dedupByKey, I1]
  | cons p rest => exact I1_dedupRun p rest h

theorem keys_dedupRun [DecidableEq K] :
    ∀ (p : K × V) (l : List (K × V)) (k₀ : K),
      (k₀ ∈ (dedupRun p l).map Prod.fst ↔ k₀ ∈ ((p :: l).map Prod.fst))
  | _, [], _ => Iff.rfl
  | p, q :: rest, k₀ => by
    unfold dedupRun
    by_cases h : q.1 = p.1
    · rw [if_pos h, keys_dedupRun p rest k₀]
      simp only [List.map_cons, List.mem_cons, h]
      tauto
    · rw [if_neg h]
      simp only [List.map_cons, List.mem_cons, keys_dedupRun q rest k₀]

/-- The first element of every run survives: an element of `dedupRun p l`
is the first element of `p :: l` bearing its key, provided `p :: l` is
sorted by key. -/
theorem dedupRun_find? [LinearOrder K] :
    ∀ (p : K × V) (l : List (K × V)),
      List.Pairwise (fun a b : K × V => a.1 ≤ b.1) (p :: l) →
      ∀ k v, (k, v) ∈ dedupRun p l →
        (p :: l).find? (fun r => decide (r.1 = k)) = some (k, v)
  | p, [], _, k, v, hmem => by
    have hp : (k, v) = p := by simpa [dedupRun] using hmem
    rw [← hp]
    simp
  | p, q :: rest, h, k, v, hmem => by
    rw [List.pairwise_cons] at h
    obtain ⟨hp, hq⟩ := h
    unfold dedupRun at hmem
    by_cases hqp : q.1 = p.1
    · rw [if_pos hqp] at hmem
      have hsorted : List.Pairwise (fun a b : K × V => a.1 ≤ b.1) (p :: rest) := by
        rw [List.pairwise_cons]
        exact ⟨fun r hr => hp r (List.mem_cons_of_mem _ hr), (List.pairwise_cons.1 hq).2⟩
      have ih := dedupRun_find? p rest hsorted k v hmem
      by_cases hpk : p.1 = k
      · rw [List.find?_cons_of_pos _ (by simpa using hpk)] at ih ⊢
        exact ih
      · rw [List.find?_cons_of_neg _ (by simpa using hpk)] at ih ⊢
        rw [List.find?_cons_of_neg _ (by simp [hqp, hpk])]
        exact ih
    · rw [if_neg hqp] at hmem
      have h1 : p.1 < q.1 :=
        lt_of_le_of_ne (hp q (List.mem_cons_self _ _)) fun h => hqp h.symm
      rcases List.mem_cons.1 hmem with heq | hmem'
      · have hpk : p.1 = k := by rw [← heq]
        rw [List.find?_cons_of_pos _ (by simpa using hpk), ← heq]
      · have hkey : q.1 ≤ k := by
          have hrm : (k, v) ∈ q :: rest := (dedupRun_sublist q rest).subset hmem'
          rcases List.mem_cons.1 hrm with heq' | hrrest
          · exact le_of_eq (congrArg Prod.fst heq'.symm)
          · exact (List.pairwise_cons.1 hq).1 _ hrrest
        have hpk : ¬ p.1 = k := by
          intro h
          rw [← h] at hkey
          exact absurd hkey (not_le_of_lt h1)
        rw [List.find?_cons_of_neg _ (by simpa using hpk)]
        exact dedupRun_find? q rest hq k v hmem'

theorem find?_eq_head?_filter {α : Type w} (p : α → Bool) :
    ∀ (l : List α), l.find? p = (l.filter p).head?
  | [] => rfl
  | a :: l => by
    by_cases h : p a
    · rw [List.find?_cons_of_pos _ h, List.filter_cons_of_pos h, List.head?_cons]
    · rw [List.find?_cons_of_neg _ h, List.filter_cons_of_neg h,
        find?_eq_head?_filter p l]

/-- Stability of the embedded stable sort: filtering the sorted output to
one key gives the same list (same order, same survivors) as filtering the
input. -/
theorem filter_key_mergeSort [LinearOrder K] (l : List (K × V)) (k : K) :
    ((l.mergeSort fun a b => decide (a.1 ≤ b.1)).filter fun r => decide (r.1 = k)) =
      l.filter fun r => decide (r.1 = k) := by
  have htrans : ∀ a b c : K × V,
      (fun a b : K × V => decide (a.1 ≤ b.1)) a b = true →
      (fun a b : K × V => decide (a.1 ≤ b.1)) b c = true →
      (fun a b : K × V => decide (a.1 ≤ b.1)) a c = true := by
    intro a b c h1 h2
    simp only [decide_eq_true_eq] at h1 h2 ⊢
    exact le_trans h1 h2
  have htotal : ∀ a b : K × V,
      ((fun a b : K × V => decide (a.1 ≤ b.1)) a b ||
       (fun a b : K × V => decide (a.1 ≤ b.1)) b a) = true := by
    intro a b
    simpa using le_total a.1 b.1
  have hc : (l.filter fun r => decide (r.1 = k)).Pairwise
      (fun a b : K × V => decide (a.1 ≤ b.1)) := by
    apply List.pairwise_of_forall_mem_list
    intro a ha b hb
    have ha' : a.1 = k := by simpa using (List.mem_filter.1 ha).2
    have hb' : b.1 = k := by simpa using (List.mem_filter.1 hb).2
    simp [ha', hb']
  have hsub : List.Sublist (l.filter fun r => decide (r.1 = k))
      (l.mergeSort fun a b => decide (a.1 ≤ b.1)) :=
    List.sublist_mergeSort htrans htotal hc (List.filter_sublist l)
  have hsub2 : List.Sublist (l.filter fun r => decide (r.1 = k))
      ((l.mergeSort fun a b => decide (a.1 ≤ b.1)).filter fun r => decide (r.1 = k)) := by
    have h := hsub.filter fun r => decide (r.1 = k)
    rwa [List.filter_filter, show
      (fun a : K × V => decide (a.1 = k) && decide (a.1 = k)) =
        (fun a : K × V => decide (a.1 = k)) from funext fun a => Bool.and_self _] at h
  have hperm : ((l.mergeSort fun a b => decide (a.1 ≤ b.1)).filter
      fun r => decide (r.1 = k)).Perm (l.filter fun r => decide (r.1 = k)) :=
    (List.mergeSort_perm l _).filter _
  exact (hsub2.eq_of_length hperm.length_eq.symm).symm

/-- C8: bulk construction stably sorts by key and deduplicates adjacent
equal keys.  The result satisfies I1, its key set equals the input's key
set (so with I1's distinctness each key appears exactly once), and every
surviving pair is the FIRST pair of the input bearing its key — the
first-encountered value per key survives, as in building from
[(1, a), (1, b)], which yields [(1, a)]. -/
theorem fromIter_contract [LinearOrder K] (l : List (K × V)) :
    I1 (fromIterFM l) ∧
    (∀ k₀, k₀ ∈ (fromIterFM l).map Prod.fst ↔ k₀ ∈ l.map Prod.fst) ∧
    (∀ k v, (k, v) ∈ fromIterFM l →
      l.find? (fun r => decide (r.1 = k)) = some (k, v)) := by
  have htrans : ∀ a b c : K × V,
      (fun a b : K × V => decide (a.1 ≤ b.1)) a b = true →
      (fun a b : K × V => decide (a.1 ≤ b.1)) b c = true →
      (fun a b : K × V => decide (a.1 ≤ b.1)) a c = true := by
    intro a b c h1 h2
    simp only [decide_eq_true_eq] at h1 h2 ⊢
    exact le_trans h1 h2
  have htotal : ∀ a b : K × V,
      ((fun a b : K × V => decide (a.1 ≤ b.1)) a b ||
       (fun a b : K × V => decide (a.1 ≤ b.1)) b a) = true := by
    intro a b
    simpa using le_total a.1 b.1
  have hsorted : List.Pairwise (fun a b : K × V => a.1 ≤ b.1)
      (l.mergeSort fun a b => decide (a.1 ≤ b.1)) :=
    (List.sorted_mergeSort htrans htotal l).imp fun h => by simpa using h
  have hperm : (l.mergeSort fun a b => decide (a.1 ≤ b.1)).Perm l :=
    List.mergeSort_perm l _
  refine ⟨I1_dedupByKey _ hsorted, ?_, ?_⟩
  · intro k₀
    have hl : k₀ ∈ (l.mergeSort fun a b => decide (a.1 ≤ b.1)).map Prod.fst ↔
        k₀ ∈ l.map Prod.fst := (hperm.map Prod.fst).mem_iff
    rw [show fromIterFM l = dedupByKey (l.mergeSort fun a b => decide (a.1 ≤ b.1))
      from rfl]
    rcases hms : l.mergeSort fun a b => decide (a.1 ≤ b.1) with _ | ⟨p, rest⟩
    · rw [hms] at hl
      simpa [dedupByKey] using hl
    · rw [hms] at hl
      rw [show dedupByKey (p :: rest) = dedupRun p rest from rfl,
        keys_dedupRun p rest k₀]
      exact hl
  · intro k v hmem
    rw [show fromIterFM l = dedupByKey (l.mergeSort fun a b => decide (a.1 ≤ b.1))
      from rfl] at hmem
    rcases hms : l.mergeSort fun a b => decide (a.1 ≤ b.1) with _ | ⟨p, rest⟩
    · rw [hms] at hmem
      cases hmem
    · rw [hms] at hmem hsorted
      have hfind := dedupRun_find? p rest hsorted k v hmem
      rw [find?_eq_head?_filter, ← hms, filter_key_mergeSort,
        ← find?_eq_head?_filter] at hfind
      exact hfind

end FlatMapVerify
